import Mathlib

/-!
Shallow embedding of `src/pagerank.py` (the PageRank core: `transition_model`,
`sample_pagerank`, `iterate_pagerank`).

Modelling choices:
* A Python dict `corpus : page -> set of pages` is an association list
  `List (Page × List Page)` with pairwise-distinct keys; a Python set is a
  duplicate-free list (the code only takes its `len` and tests membership).
* Python float arithmetic is modelled exactly over `ℚ`; the spec's tolerance
  phrases ("up to floating-point rounding") become exact equalities.
* Python exceptions (KeyError, ZeroDivisionError, IndexError) are modelled by
  `Option`: `none` means the call raises and no result is returned.
* The global random generator is modelled as an oracle stream `Nat → Nat`;
  each draw (`random.choice`, `random.choices`) selects an index into the
  population via the next oracle value, so every population element is a
  possible outcome.  Theorems about randomised code quantify over all streams.
* The unbounded `while True:` loop of `iterate_pagerank` is modelled with
  explicit fuel returning `none` on exhaustion; termination claims state that
  some fuel suffices.
-/

abbrev Page := String

abbrev Graph := List (Page × List Page)

namespace PageRank

/-- The key list of a dict (Python `list(corpus.keys())`, in insertion order). -/
def keys (g : Graph) : List Page := g.map Prod.fst

/-- Python dict indexing `corpus[page]`: `none` models a `KeyError`. -/
def lookupOut : Graph → Page → Option (List Page)
  | [], _ => none
  | pr :: t, p => if pr.1 = p then some pr.2 else lookupOut t p

/-- Lookup in a returned distribution / rank dict. -/
def distLookup : List (Page × ℚ) → Page → Option ℚ
  | [], _ => none
  | pr :: t, p => if pr.1 = p then some pr.2 else distLookup t p

/-- Sum of the values of a returned dict. -/
def sumValues (m : List (Page × ℚ)) : ℚ := (m.map Prod.snd).sum

/-- Well-formed link graph (§3 invariant): distinct keys, each outbound set is
duplicate-free and every link target is itself a key of the graph. -/
def WF (g : Graph) : Prop :=
  (keys g).Nodup ∧ ∀ pr ∈ g, pr.2.Nodup ∧ ∀ t ∈ pr.2, t ∈ keys g

instance : DecidablePred WF := fun g => by
  unfold WF; infer_instance

/-- Embedding of `transition_model(corpus, page, damping_factor)`
(src/pagerank.py lines 52-80). -/
def transition_model (corpus : Graph) (page : Page) (d : ℚ) :
    Option (List (Page × ℚ)) :=
  match lookupOut corpus page with
  | none => none
  | some out =>
    if out.length = 0 then
      some (corpus.map (fun pr => (pr.1, 1 / (corpus.length : ℚ))))
    else
      some (corpus.map (fun pr =>
        (pr.1,
          if pr.1 ∈ out then
            (1 - d) / (corpus.length : ℚ) + d / (out.length : ℚ)
          else
            (1 - d) / (corpus.length : ℚ))))

/-- One draw from the oracle: pick an element of a non-empty population by
index.  Models `random.choice` / the value returned by `random.choices(...)[0]`. -/
def pickKey (pop : List Page) (r : Nat) : Page :=
  pop.getD (r % pop.length) ""

/-- `pagerank_dict[next_page] += 1` (src/pagerank.py line 104). -/
def incr (counts : List (Page × Int)) (p : Page) : List (Page × Int) :=
  counts.map (fun pr => if pr.1 = p then (pr.1, pr.2 + 1) else pr)

/-- The sampling loop of `sample_pagerank` (src/pagerank.py lines 101-105):
`k` draws remain, `i` indexes the oracle stream, `current` is the surfer's
page. `none` models the `KeyError` raised if `current` were absent. -/
def sample_loop (corpus : Graph) (d : ℚ) (rng : Nat → Nat) :
    Nat → Nat → Page → List (Page × Int) → Option (List (Page × Int))
  | 0, _, _, counts => some counts
  | k + 1, i, current, counts =>
    match transition_model corpus current d with
    | none => none
    | some model =>
      let next := pickKey (model.map Prod.fst) (rng i)
      sample_loop corpus d rng k (i + 1) next (incr counts next)

/-- Embedding of `sample_pagerank(corpus, damping_factor, n)`
(src/pagerank.py lines 83-112).  `n : ℤ` as in Python; `range(n)` is empty for
`n ≤ 0`; dividing the counts by `n = 0` raises `ZeroDivisionError` (`none`);
`random.choice` on an empty corpus raises `IndexError` (`none`). -/
def sample_pagerank (corpus : Graph) (d : ℚ) (n : Int) (rng : Nat → Nat) :
    Option (List (Page × ℚ)) :=
  if corpus.length = 0 then none
  else
    match sample_loop corpus d rng n.toNat 1 (pickKey (keys corpus) (rng 0))
        (corpus.map (fun pr => (pr.1, (0 : Int)))) with
    | none => none
    | some counts =>
      if n = 0 then none
      else some (counts.map (fun pr => (pr.1, (pr.2 : ℚ) / (n : ℚ))))

/-- The sink normalization of `iterate_pagerank` (src/pagerank.py lines
128-130): every page with an empty outbound set gets the full key set.  The
Python code performs this mutation in place on the caller's dict. -/
def sink_normalize (corpus : Graph) : Graph :=
  corpus.map (fun pr => if pr.2.isEmpty then (pr.1, keys corpus) else pr)

/-- Reading `pagerank_dict[p]` / `new_ranks[p]`: the rank dicts are
association lists; inside the loop every access hits an existing key, so the
default 0 of the total lookup is never taken. -/
def rankLookup (r : List (Page × ℚ)) (p : Page) : ℚ :=
  (distLookup r p).getD 0

/-- `sum(pagerank_dict[link] / len(corpus[link]) for link in corpus if page in
corpus[link])` (src/pagerank.py line 140). -/
def rank_sum (g : Graph) (r : List (Page × ℚ)) (page : Page) : ℚ :=
  ((g.filter (fun pr => decide (page ∈ pr.2))).map
    (fun pr => rankLookup r pr.1 / (pr.2.length : ℚ))).sum

/-- One full pass of the relaxation loop (src/pagerank.py lines 138-141):
`new_ranks` is a fresh dict with the corpus's keys in order. -/
def pr_step (g : Graph) (d : ℚ) (r : List (Page × ℚ)) : List (Page × ℚ) :=
  g.map (fun pr => (pr.1, (1 - d) / (g.length : ℚ) + d * rank_sum g r pr.1))

/-- `k` passes of the relaxation. -/
def stepN (g : Graph) (d : ℚ) : Nat → List (Page × ℚ) → List (Page × ℚ)
  | 0, r => r
  | k + 1, r => pr_step g d (stepN g d k r)

/-- The convergence test (src/pagerank.py line 143): every page of the old
dict moved by less than 0.001. -/
def converged (rnew rold : List (Page × ℚ)) : Bool :=
  (rold.map Prod.fst).all
    (fun p => decide (|rankLookup rnew p - rankLookup rold p| < 1 / 1000))

/-- The `while True:` loop (src/pagerank.py lines 137-146), fuelled.  On
convergence the code `break`s and returns `pagerank_dict` — the rank that
ENTERED the pass — because the assignment `pagerank_dict = new_ranks` runs
only when the test fails. -/
def iterate_loop (g : Graph) (d : ℚ) : Nat → List (Page × ℚ) → Option (List (Page × ℚ))
  | 0, _ => none
  | fuel + 1, rank =>
    let newRanks := pr_step g d rank
    if converged newRanks rank then some rank
    else iterate_loop g d fuel newRanks

/-- Embedding of `iterate_pagerank(corpus, damping_factor)`
(src/pagerank.py lines 115-148).  An empty corpus raises `ZeroDivisionError`
at line 125 (`none`); the initial dict is built from the corpus keys before
the sink normalization. -/
def iterate_pagerank (corpus : Graph) (d : ℚ) (fuel : Nat) :
    Option (List (Page × ℚ)) :=
  if corpus.length = 0 then none
  else iterate_loop (sink_normalize corpus) d fuel
    (corpus.map (fun pr => (pr.1, 1 / (corpus.length : ℚ))))

/-- The caller's corpus object after `iterate_pagerank` returns (or raises):
the in-place sink normalization (lines 128-130) has already mutated it,
except when the empty corpus raised at line 125 before reaching it. -/
def iterate_corpus_after (corpus : Graph) : Graph :=
  if corpus.length = 0 then corpus else sink_normalize corpus

/-- Modelled from the spec: the loop of §4.3 step 4, which on convergence
"stops and returns `newRank`" rather than the previous pass's rank.  Used
only to compare the spec's claimed return value with the code's. -/
def iterate_loop_specModel (g : Graph) (d : ℚ) :
    Nat → List (Page × ℚ) → Option (List (Page × ℚ))
  | 0, _ => none
  | fuel + 1, rank =>
    let newRanks := pr_step g d rank
    if converged newRanks rank then some newRanks
    else iterate_loop_specModel g d fuel newRanks

/-- Modelled from the spec: `iterate_pagerank` as §4.3 describes it,
returning the final pass's `newRank`. -/
def iterate_pagerank_specModel (corpus : Graph) (d : ℚ) (fuel : Nat) :
    Option (List (Page × ℚ)) :=
  if corpus.length = 0 then none
  else iterate_loop_specModel (sink_normalize corpus) d fuel
    (corpus.map (fun pr => (pr.1, 1 / (corpus.length : ℚ))))

/-- The graph shape the relaxation loop actually runs on, established by the
sink normalization: distinct keys, and every outbound set is duplicate-free,
non-empty and contained in the key set. -/
def NormWF (g : Graph) : Prop :=
  (keys g).Nodup ∧ ∀ pr ∈ g, pr.2.Nodup ∧ pr.2 ≠ [] ∧ ∀ t ∈ pr.2, t ∈ keys g

/-- L1 distance between two rank dicts over the pages of `g`. -/
def L1 (g : Graph) (a b : List (Page × ℚ)) : ℚ :=
  ((keys g).map (fun p => |rankLookup a p - rankLookup b p|)).sum

/-- `iterate_pagerank` with the process-wide random generator threaded
through explicitly, as for the sampling estimator: the source makes no random
call in `iterate_pagerank`, so the state passes through untouched. -/
def iterate_pagerank_rng (corpus : Graph) (d : ℚ) (fuel : Nat)
    (rng : Nat → Nat) : Option (List (Page × ℚ)) × (Nat → Nat) :=
  (iterate_pagerank corpus d fuel, rng)

/-! ### Generic list-sum helpers -/

theorem sum_map_add {β : Type*} (l : List β) (f h : β → ℚ) :
    (l.map (fun x => f x + h x)).sum = (l.map f).sum + (l.map h).sum := by
  induction l with
  | nil => simp
  | cons a t ih => simp only [List.map_cons, List.sum_cons, ih]; ring

theorem sum_map_sub {β : Type*} (l : List β) (f h : β → ℚ) :
    (l.map (fun x => f x - h x)).sum = (l.map f).sum - (l.map h).sum := by
  induction l with
  | nil => simp
  | cons a t ih => simp only [List.map_cons, List.sum_cons, ih]; ring

theorem sum_map_mul_const {β : Type*} (l : List β) (c : ℚ) (f : β → ℚ) :
    (l.map (fun x => c * f x)).sum = c * (l.map f).sum := by
  induction l with
  | nil => simp
  | cons a t ih => simp only [List.map_cons, List.sum_cons, ih]; ring

theorem sum_map_const_val {β : Type*} (l : List β) (c : ℚ) :
    (l.map (fun _ => c)).sum = l.length * c := by
  induction l with
  | nil => simp
  | cons a t ih =>
    simp only [List.map_cons, List.sum_cons, ih, List.length_cons]
    push_cast
    ring

theorem sum_map_nonneg {β : Type*} (l : List β) (f : β → ℚ)
    (hf : ∀ x ∈ l, 0 ≤ f x) : 0 ≤ (l.map f).sum := by
  induction l with
  | nil => simp
  | cons a t ih =>
    simp only [List.map_cons, List.sum_cons]
    have h1 := hf a (List.mem_cons_self a t)
    have h2 := ih (fun x hx => hf x (List.mem_cons_of_mem a hx))
    linarith

theorem single_le_sum_mem {β : Type*} (l : List β) (f : β → ℚ)
    (hf : ∀ x ∈ l, 0 ≤ f x) : ∀ x ∈ l, f x ≤ (l.map f).sum := by
  induction l with
  | nil => simp
  | cons a t ih =>
    intro x hx
    simp only [List.map_cons, List.sum_cons]
    rcases List.mem_cons.mp hx with heq | hx
    · have h0 := sum_map_nonneg t f (fun y hy => hf y (List.mem_cons_of_mem a hy))
      rw [heq]
      linarith
    · have h1 := ih (fun y hy => hf y (List.mem_cons_of_mem a hy)) x hx
      have h2 := hf a (List.mem_cons_self a t)
      linarith

theorem abs_sum_le_sum_abs_list {β : Type*} (l : List β) (f : β → ℚ) :
    |(l.map f).sum| ≤ (l.map (fun x => |f x|)).sum := by
  induction l with
  | nil => simp
  | cons a t ih =>
    simp only [List.map_cons, List.sum_cons]
    calc |f a + (t.map f).sum| ≤ |f a| + |(t.map f).sum| := abs_add _ _
      _ ≤ |f a| + (t.map (fun x => |f x|)).sum := by linarith

theorem sum_comm_lists {α β : Type*} (K : List α) (G : List β) (F : α → β → ℚ) :
    (K.map (fun p => (G.map (fun q => F p q)).sum)).sum
      = (G.map (fun q => (K.map (fun p => F p q)).sum)).sum := by
  induction K with
  | nil => simp [sum_map_const_val]
  | cons a t ih =>
    simp only [List.map_cons, List.sum_cons, sum_map_add, ih]

theorem sum_map_ite_mem (K out : List Page) (c : ℚ) :
    (K.map (fun p => if p ∈ out then c else 0)).sum
      = ((K.filter (fun p => decide (p ∈ out))).length : ℚ) * c := by
  induction K with
  | nil => simp
  | cons a t ih =>
    by_cases h : a ∈ out
    · simp only [List.map_cons, List.sum_cons, if_pos h, ih, List.filter_cons,
        decide_eq_true h, if_pos trivial]
      push_cast [List.length_cons]
      ring
    · simp only [List.map_cons, List.sum_cons, if_neg h, ih, List.filter_cons]
      simp [h]

theorem sum_filter_map_eq_sum_ite {β : Type*} (l : List β) (p : β → Prop)
    [DecidablePred p] (f : β → ℚ) :
    ((l.filter (fun x => decide (p x))).map f).sum
      = (l.map (fun x => if p x then f x else 0)).sum := by
  induction l with
  | nil => simp
  | cons a t ih =>
    by_cases h : p a
    · simp [List.filter_cons, h, ih]
    · simp [List.filter_cons, h, ih]

theorem length_filter_mem (K out : List Page) (hK : K.Nodup) (ho : out.Nodup)
    (hsub : ∀ t ∈ out, t ∈ K) :
    (K.filter (fun p => decide (p ∈ out))).length = out.length := by
  have hperm : (K.filter (fun p => decide (p ∈ out))).Perm out := by
    rw [List.perm_ext_iff_of_nodup (hK.filter _) ho]
    intro a
    simp only [List.mem_filter, decide_eq_true_eq]
    exact ⟨fun h => h.2, fun h => ⟨hsub a h, h⟩⟩
  exact hperm.length_eq

/-! ### Dict-lookup helpers -/

theorem lookupOut_mem {g : Graph} {p : Page} {out : List Page}
    (h : lookupOut g p = some out) : (p, out) ∈ g := by
  induction g with
  | nil => simp [lookupOut] at h
  | cons hd t ih =>
    by_cases hh : hd.1 = p
    · simp only [lookupOut, if_pos hh] at h
      cases h
      exact hh ▸ List.mem_cons_self hd t
    · simp only [lookupOut, if_neg hh] at h
      exact List.mem_cons_of_mem hd (ih h)

theorem mem_keys_lookupOut {g : Graph} {p : Page} (hp : p ∈ keys g) :
    ∃ out, lookupOut g p = some out := by
  induction g with
  | nil => simp [keys] at hp
  | cons hd t ih =>
    by_cases hh : hd.1 = p
    · exact ⟨hd.2, by simp [lookupOut, hh]⟩
    · simp only [keys, List.map_cons, List.mem_cons] at hp
      rcases hp with rfl | hp
      · exact absurd rfl hh
      · obtain ⟨out, ho⟩ := ih hp
        exact ⟨out, by simp [lookupOut, hh, ho]⟩

theorem distLookup_map_val (c : Graph) (F : Page → ℚ) :
    ∀ p ∈ keys c, distLookup (c.map (fun pr => (pr.1, F pr.1))) p = some (F p) := by
  induction c with
  | nil => simp [keys]
  | cons hd t ih =>
    intro p hp
    by_cases hh : hd.1 = p
    · simp [distLookup, hh]
    · simp only [keys, List.map_cons, List.mem_cons] at hp
      rcases hp with rfl | hp
      · exact absurd rfl hh
      · simpa [distLookup, hh] using ih p hp

theorem map_fst_map_pair {α γ : Type*} (c : List (Page × α)) (F : Page × α → γ) :
    (c.map (fun pr => (pr.1, F pr))).map Prod.fst = c.map Prod.fst := by
  simp

theorem sumValues_map {α : Type*} (c : List (Page × α)) (F : Page × α → ℚ) :
    sumValues (c.map (fun pr => (pr.1, F pr))) = (c.map F).sum := by
  unfold sumValues
  rw [List.map_map]
  rfl

/-! ### Normalization helpers -/

theorem sink_normalize_keys (c : Graph) : keys (sink_normalize c) = keys c := by
  unfold sink_normalize keys
  rw [List.map_map]
  apply List.map_congr_left
  intro pr _
  by_cases h : pr.2 = [] <;> simp [h]

theorem sink_normalize_length (c : Graph) : (sink_normalize c).length = c.length :=
  List.length_map _ _

theorem lookupOut_map_sink (K : List Page) :
    ∀ (c : Graph) (p : Page) (out : List Page), lookupOut c p = some out →
      lookupOut (c.map (fun pr => if pr.2.isEmpty then (pr.1, K) else pr)) p
        = some (if out.isEmpty then K else out) := by
  intro c
  induction c with
  | nil => intro p out h; simp [lookupOut] at h
  | cons hd t ih =>
    intro p out h
    have h1 : (if hd.2.isEmpty then (hd.1, K) else hd).1 = hd.1 := by
      by_cases he : hd.2.isEmpty <;> simp [he]
    have h2 : (if hd.2.isEmpty then (hd.1, K) else hd).2
        = if hd.2.isEmpty then K else hd.2 := by
      by_cases he : hd.2.isEmpty <;> simp [he]
    by_cases hh : hd.1 = p
    · simp only [lookupOut, if_pos hh] at h
      cases h
      simp only [List.map_cons, lookupOut, h1, if_pos hh, h2]
    · simp only [lookupOut, if_neg hh] at h
      simp only [List.map_cons, lookupOut, h1, if_neg hh]
      exact ih p out h

theorem lookupOut_sink_normalize (c : Graph) (p : Page) (out : List Page)
    (h : lookupOut c p = some out) :
    lookupOut (sink_normalize c) p = some (if out.isEmpty then keys c else out) :=
  lookupOut_map_sink (keys c) c p out h

/-! ### Transition-model lemmas -/

theorem transition_model_keys {corpus : Graph} {page : Page} {d : ℚ}
    {m : List (Page × ℚ)} (h : transition_model corpus page d = some m) :
    m.map Prod.fst = keys corpus := by
  cases hl : lookupOut corpus page with
  | none =>
    simp only [transition_model, hl] at h
    exact absurd h (by simp)
  | some out =>
    simp only [transition_model, hl] at h
    by_cases hout : out.length = 0
    · rw [if_pos hout] at h
      cases h
      exact map_fst_map_pair _ _
    · rw [if_neg hout] at h
      cases h
      exact map_fst_map_pair _ _

/-- Claim C3: for a sink page the transition model is uniform `1/|graph|`;
otherwise every page gets the base term `(1-d)/|graph|` and each link target
additionally `d/|outbound(page)|`, a target receiving the sum of both. -/
theorem transition_model_values (corpus : Graph) (page : Page) (d : ℚ)
    (out : List Page) (hWF : WF corpus) (hne : corpus ≠ [])
    (hpage : lookupOut corpus page = some out) (hd0 : 0 ≤ d) (hd1 : d ≤ 1) :
    ∃ m, transition_model corpus page d = some m ∧
      (out = [] → ∀ q ∈ keys corpus,
        distLookup m q = some (1 / (corpus.length : ℚ))) ∧
      (out ≠ [] → ∀ q ∈ keys corpus,
        distLookup m q = some ((1 - d) / (corpus.length : ℚ) +
          if q ∈ out then d / (out.length : ℚ) else 0)) := by
  simp only [transition_model, hpage]
  by_cases hout : out.length = 0
  · rw [if_pos hout]
    refine ⟨_, rfl, ?_, ?_⟩
    · intro _ q hq
      exact distLookup_map_val corpus (fun _ => 1 / (corpus.length : ℚ)) q hq
    · intro hne2
      exact absurd (List.length_eq_zero.mp hout) hne2
  · rw [if_neg hout]
    refine ⟨_, rfl, ?_, ?_⟩
    · intro h0
      rw [h0] at hout
      simp at hout
    · intro _ q hq
      have hv := distLookup_map_val corpus
        (fun x => if x ∈ out then
          (1 - d) / (corpus.length : ℚ) + d / (out.length : ℚ)
          else (1 - d) / (corpus.length : ℚ)) q hq
      rw [hv]
      by_cases hq2 : q ∈ out <;> simp [hq2]

/-- Claim C4: the transition-model distribution sums to exactly 1 (the
floating-point tolerance of the spec becomes exactness over `ℚ`). -/
theorem transition_model_sum_one (corpus : Graph) (page : Page) (d : ℚ)
    (out : List Page) (hWF : WF corpus) (hne : corpus ≠ [])
    (hpage : lookupOut corpus page = some out) (hd0 : 0 ≤ d) (hd1 : d ≤ 1) :
    ∃ m, transition_model corpus page d = some m ∧ sumValues m = 1 := by
  have hN : (corpus.length : ℚ) ≠ 0 := by
    intro h0
    exact hne (List.length_eq_zero.mp (by exact_mod_cast h0))
  simp only [transition_model, hpage]
  by_cases hout : out.length = 0
  · rw [if_pos hout]
    refine ⟨_, rfl, ?_⟩
    rw [sumValues_map]
    rw [sum_map_const_val]
    field_simp
  · rw [if_neg hout]
    refine ⟨_, rfl, ?_⟩
    rw [sumValues_map]
    have hL : (out.length : ℚ) ≠ 0 := by
      exact_mod_cast hout
    have hsplit : corpus.map (fun pr =>
        if pr.1 ∈ out then
          (1 - d) / (corpus.length : ℚ) + d / (out.length : ℚ)
        else (1 - d) / (corpus.length : ℚ))
        = corpus.map (fun pr => (1 - d) / (corpus.length : ℚ) +
            (if pr.1 ∈ out then d / (out.length : ℚ) else 0)) := by
      apply List.map_congr_left
      intro pr _
      by_cases hm : pr.1 ∈ out <;> simp [hm]
    rw [hsplit, sum_map_add, sum_map_const_val]
    have hcount : (corpus.map (fun pr =>
        if pr.1 ∈ out then d / (out.length : ℚ) else 0)).sum
        = ((keys corpus).map (fun p =>
            if p ∈ out then d / (out.length : ℚ) else 0)).sum := by
      unfold keys
      rw [List.map_map]
      rfl
    rw [hcount, sum_map_ite_mem]
    have hmem := lookupOut_mem hpage
    have hsub := (hWF.2 _ hmem).2
    have hnd := (hWF.2 _ hmem).1
    rw [length_filter_mem _ _ hWF.1 hnd hsub]
    field_simp

/-- Claim C6 (counterexample): with damping 0, the link target `B` of page
`A` gets probability 1/2, the same as the non-target `A` — not strictly
higher, refuting the claim at damping = 0. -/
theorem transition_link_bonus_cex :
    transition_model [("A", ["B"]), ("B", ["A"])] "A" 0 =
      some [("A", (1 : ℚ) / 2), ("B", 1 / 2)] ∧ ¬ ((1 : ℚ) / 2 < 1 / 2) := by
  constructor
  · simp only [transition_model, lookupOut]
    norm_num
  · norm_num

/-- Claim C6 (amended): for strictly positive damping `0 < d ≤ 1`, every
link target of a non-sink page gets strictly higher probability than every
page outside the outbound set. -/
theorem transition_link_bonus_pos_damping (corpus : Graph) (page q t : Page)
    (d : ℚ) (out : List Page) (hWF : WF corpus) (hne : corpus ≠ [])
    (hpage : lookupOut corpus page = some out) (hsink : out ≠ [])
    (hd0 : 0 < d) (hd1 : d ≤ 1) (hq : q ∈ keys corpus) (hqn : q ∉ out)
    (ht : t ∈ out) :
    ∃ m, transition_model corpus page d = some m ∧
      ∃ vq vt, distLookup m q = some vq ∧ distLookup m t = some vt ∧ vq < vt := by
  have htk : t ∈ keys corpus := (hWF.2 _ (lookupOut_mem hpage)).2 t ht
  have hout : ¬ out.length = 0 := by
    intro h0
    exact hsink (List.length_eq_zero.mp h0)
  simp only [transition_model, hpage]
  rw [if_neg hout]
  have hvq := distLookup_map_val corpus
    (fun x => if x ∈ out then
      (1 - d) / (corpus.length : ℚ) + d / (out.length : ℚ)
      else (1 - d) / (corpus.length : ℚ)) q hq
  have hvt := distLookup_map_val corpus
    (fun x => if x ∈ out then
      (1 - d) / (corpus.length : ℚ) + d / (out.length : ℚ)
      else (1 - d) / (corpus.length : ℚ)) t htk
  refine ⟨_, rfl, _, _, hvq, hvt, ?_⟩
  simp only [if_neg hqn, if_pos ht]
  have hLpos : (0 : ℚ) < (out.length : ℚ) := by
    have : 0 < out.length := Nat.pos_of_ne_zero hout
    exact_mod_cast this
  have : 0 < d / (out.length : ℚ) := div_pos hd0 hLpos
  linarith

/-- Witness for Claim C3 at the graph `{A: {B}, B: {}}`, page `A`,
damping 0.85. -/
theorem transition_model_values_witness :
    ∃ m, transition_model [("A", ["B"]), ("B", [])] "A" (17 / 20) = some m ∧
      ((["B"] : List Page) = [] → ∀ q ∈ keys [("A", ["B"]), ("B", [])],
        distLookup m q =
          some (1 / (([("A", ["B"]), ("B", [])] : Graph).length : ℚ))) ∧
      ((["B"] : List Page) ≠ [] → ∀ q ∈ keys [("A", ["B"]), ("B", [])],
        distLookup m q = some ((1 - 17 / 20) /
            (([("A", ["B"]), ("B", [])] : Graph).length : ℚ) +
          if q ∈ (["B"] : List Page) then
            (17 : ℚ) / 20 / ((["B"] : List Page).length : ℚ) else 0)) :=
  transition_model_values _ "A" _ ["B"] (by decide) (by decide) (by decide)
    (by norm_num) (by norm_num)

/-- Witness for Claim C4 at the sink page `B` of `{A: {B}, B: {}}`. -/
theorem transition_model_sum_one_witness :
    ∃ m, transition_model [("A", ["B"]), ("B", [])] "B" (17 / 20) = some m ∧
      sumValues m = 1 :=
  transition_model_sum_one _ "B" _ [] (by decide) (by decide) (by decide)
    (by norm_num) (by norm_num)

/-- Witness for the amended Claim C6 at `{A: {B}, B: {A}}`, page `A`,
target `B`, non-target `A`, damping 0.85. -/
theorem transition_link_bonus_pos_damping_witness :
    ∃ m, transition_model [("A", ["B"]), ("B", ["A"])] "A" (17 / 20) = some m ∧
      ∃ vq vt, distLookup m "A" = some vq ∧ distLookup m "B" = some vt ∧
        vq < vt :=
  transition_link_bonus_pos_damping _ "A" "A" "B" _ ["B"] (by decide)
    (by decide) (by decide) (by decide) (by norm_num) (by norm_num)
    (by decide) (by decide) (by decide)

/-- Claim C2 (counterexample): calling the iterative estimator on the graph
`{A: {}, B: {A}}` rewrites the caller's outbound set of the sink page `A`
in place to the full page set, so the caller's graph is changed. -/
theorem iterate_mutates_caller_graph_cex :
    lookupOut (iterate_corpus_after [("A", []), ("B", ["A"])]) "A"
        = some ["A", "B"] ∧
      lookupOut [("A", ([] : List Page)), ("B", ["A"])] "A" = some [] ∧
      iterate_corpus_after [("A", []), ("B", ["A"])] ≠ [("A", []), ("B", ["A"])] := by
  decide

/-- Claim C2 (amended): `iterate_pagerank` normalizes the caller's graph in
place: after a call on a non-empty graph, a page whose outbound set was
empty now maps to the full key set, and any other page is unchanged. -/
theorem iterate_corpus_after_char (corpus : Graph) (p : Page)
    (out : List Page) (hne : corpus ≠ []) (h : lookupOut corpus p = some out) :
    lookupOut (iterate_corpus_after corpus) p =
      some (if out.isEmpty then keys corpus else out) := by
  unfold iterate_corpus_after
  rw [if_neg (by simpa using fun h0 => hne (List.length_eq_zero.mp h0))]
  exact lookupOut_sink_normalize corpus p out h

/-- Witness for the amended Claim C2 at the graph `{A: {}, B: {A}}`. -/
theorem iterate_corpus_after_char_witness :
    lookupOut (iterate_corpus_after [("A", []), ("B", ["A"])]) "A" =
      some (if ([] : List Page).isEmpty
        then keys [("A", []), ("B", ["A"])] else []) :=
  iterate_corpus_after_char [("A", []), ("B", ["A"])] "A" [] (by decide) (by decide)

/-- Claim C5: the code evaluated at the failing input: `sample_pagerank` on
the one-page graph with `n = -1` raises nothing and returns the all-zero
mapping `{A: 0}` (Python returns `{"A": -0.0}`), for every random stream —
instead of signalling a precondition violation as the claim (and the
function's own docstring, which promises values summing to 1) requires. -/
theorem sample_pagerank_neg_n_returns_zeros (rng : Nat → Nat) :
    sample_pagerank [("A", [])] (17 / 20) (-1) rng = some [("A", 0)] := by
  simp only [sample_pagerank, sample_loop]
  norm_num

/-! ### Key-set preservation (Claim C10) -/

theorem incr_map_fst (counts : List (Page × Int)) (p : Page) :
    (incr counts p).map Prod.fst = counts.map Prod.fst := by
  unfold incr
  rw [List.map_map]
  apply List.map_congr_left
  intro pr _
  by_cases h : pr.1 = p <;> simp [h]

theorem sample_loop_map_fst (corpus : Graph) (d : ℚ) (rng : Nat → Nat) :
    ∀ (k i : Nat) (cur : Page) (counts m : List (Page × Int)),
      sample_loop corpus d rng k i cur counts = some m →
        m.map Prod.fst = counts.map Prod.fst := by
  intro k
  induction k with
  | zero =>
    intro i cur counts m h
    simp only [sample_loop] at h
    cases h
    rfl
  | succ k ih =>
    intro i cur counts m h
    cases htm : transition_model corpus cur d with
    | none =>
      simp only [sample_loop, htm] at h
      exact Option.noConfusion h
    | some model =>
      simp only [sample_loop, htm] at h
      rw [ih _ _ _ _ h, incr_map_fst]

theorem sample_pagerank_keys {corpus : Graph} {d : ℚ} {n : Int}
    {rng : Nat → Nat} {m : List (Page × ℚ)}
    (h : sample_pagerank corpus d n rng = some m) :
    m.map Prod.fst = keys corpus := by
  by_cases hc : corpus.length = 0
  · simp only [sample_pagerank, if_pos hc] at h
    exact Option.noConfusion h
  · cases hsl : sample_loop corpus d rng n.toNat 1 (pickKey (keys corpus) (rng 0))
        (corpus.map (fun pr => (pr.1, (0 : Int)))) with
    | none =>
      simp only [sample_pagerank, if_neg hc, hsl] at h
      exact Option.noConfusion h
    | some counts =>
      simp only [sample_pagerank, if_neg hc, hsl] at h
      by_cases hn : n = 0
      · rw [if_pos hn] at h
        exact absurd h (by simp)
      · rw [if_neg hn] at h
        cases h
        rw [map_fst_map_pair, sample_loop_map_fst corpus d rng _ _ _ _ _ hsl,
          map_fst_map_pair]
        rfl

theorem iterate_loop_map_fst (g : Graph) (d : ℚ) :
    ∀ (fuel : Nat) (r m : List (Page × ℚ)),
      iterate_loop g d fuel r = some m →
        m.map Prod.fst = r.map Prod.fst ∨ m.map Prod.fst = keys g := by
  intro fuel
  induction fuel with
  | zero =>
    intro r m h
    simp only [iterate_loop] at h
    exact Option.noConfusion h
  | succ fuel ih =>
    intro r m h
    simp only [iterate_loop] at h
    by_cases hc : converged (pr_step g d r) r = true
    · rw [if_pos hc] at h
      cases h
      exact Or.inl rfl
    · rw [if_neg hc] at h
      rcases ih _ _ h with h1 | h1
      · refine Or.inr ?_
        rw [h1]
        unfold pr_step
        rw [map_fst_map_pair]
        rfl
      · exact Or.inr h1

theorem iterate_pagerank_keys {corpus : Graph} {d : ℚ} {fuel : Nat}
    {m : List (Page × ℚ)} (h : iterate_pagerank corpus d fuel = some m) :
    m.map Prod.fst = keys corpus := by
  by_cases hc : corpus.length = 0
  · simp only [iterate_pagerank, if_pos hc] at h
    exact Option.noConfusion h
  · simp only [iterate_pagerank, if_neg hc] at h
    rcases iterate_loop_map_fst _ d _ _ _ h with h1 | h1
    · rw [h1, map_fst_map_pair]
      rfl
    · rw [h1, sink_normalize_keys]

/-- Claim C10: for valid inputs, each core operation returns a mapping whose
key list is exactly the key list of the input graph. -/
theorem core_ops_keys_eq (corpus : Graph) (p : Page) (d : ℚ) (n : Int)
    (rng : Nat → Nat) (fuel : Nat) (m₁ m₂ m₃ : List (Page × ℚ))
    (h₁ : transition_model corpus p d = some m₁)
    (h₂ : sample_pagerank corpus d n rng = some m₂)
    (h₃ : iterate_pagerank corpus d fuel = some m₃) :
    m₁.map Prod.fst = keys corpus ∧ m₂.map Prod.fst = keys corpus ∧
      m₃.map Prod.fst = keys corpus :=
  ⟨transition_model_keys h₁, sample_pagerank_keys h₂, iterate_pagerank_keys h₃⟩

/-- Witness for Claim C10 at `{A: {B}, B: {A}}` with damping 0.85, `n = 2`,
the constant-zero random stream, and fuel 1. -/
theorem core_ops_keys_eq_witness :
    transition_model [("A", ["B"]), ("B", ["A"])] "A" (17 / 20)
        = some [("A", 3 / 40), ("B", 37 / 40)] ∧
      sample_pagerank [("A", ["B"]), ("B", ["A"])] (17 / 20) 2 (fun _ => 0)
        = some [("A", 1), ("B", 0)] ∧
      iterate_pagerank [("A", ["B"]), ("B", ["A"])] (17 / 20) 1
        = some [("A", 1 / 2), ("B", 1 / 2)] ∧
      ([("A", (3 : ℚ) / 40), ("B", 37 / 40)].map Prod.fst
          = keys [("A", ["B"]), ("B", ["A"])] ∧
        [("A", (1 : ℚ)), ("B", 0)].map Prod.fst
          = keys [("A", ["B"]), ("B", ["A"])] ∧
        [("A", (1 : ℚ) / 2), ("B", 1 / 2)].map Prod.fst
          = keys [("A", ["B"]), ("B", ["A"])]) := by
  have h₁ : transition_model [("A", ["B"]), ("B", ["A"])] "A" (17 / 20)
      = some [("A", 3 / 40), ("B", 37 / 40)] := by
    simp [transition_model, lookupOut]
    norm_num
  have h₂ : sample_pagerank [("A", ["B"]), ("B", ["A"])] (17 / 20) 2 (fun _ => 0)
      = some [("A", 1), ("B", 0)] := by
    simp [sample_pagerank, sample_loop, transition_model, lookupOut, pickKey,
      incr, keys]
  have h₃ : iterate_pagerank [("A", ["B"]), ("B", ["A"])] (17 / 20) 1
      = some [("A", 1 / 2), ("B", 1 / 2)] := by
    simp [iterate_pagerank, iterate_loop, converged, pr_step, rank_sum,
      rankLookup, distLookup, sink_normalize, keys, List.filter_cons, abs_lt]
    norm_num
  exact ⟨h₁, h₂, h₃,
    core_ops_keys_eq [("A", ["B"]), ("B", ["A"])] "A" (17 / 20) 2 (fun _ => 0)
      1 _ _ _ h₁ h₂ h₃⟩

/-! ### Which pass does the loop return? (Claim C1) -/

theorem stepN_shift (g : Graph) (d : ℚ) (k : Nat) (r : List (Page × ℚ)) :
    stepN g d k (pr_step g d r) = stepN g d (k + 1) r := by
  induction k with
  | zero => rfl
  | succ k ih => simp only [stepN, ih]

theorem iterate_loop_returns_prev (g : Graph) (d : ℚ) :
    ∀ (fuel : Nat) (r0 r : List (Page × ℚ)), iterate_loop g d fuel r0 = some r →
      converged (pr_step g d r) r = true ∧ ∃ k, r = stepN g d k r0 := by
  intro fuel
  induction fuel with
  | zero =>
    intro r0 r h
    simp only [iterate_loop] at h
    exact Option.noConfusion h
  | succ fuel ih =>
    intro r0 r h
    simp only [iterate_loop] at h
    by_cases hc : converged (pr_step g d r0) r0 = true
    · rw [if_pos hc] at h
      cases h
      exact ⟨hc, 0, rfl⟩
    · rw [if_neg hc] at h
      obtain ⟨h1, k, hk⟩ := ih _ _ h
      exact ⟨h1, k + 1, by rw [hk, stepN_shift]⟩

/-- Claim C1 (amended): on convergence the estimator returns the rank dict
that ENTERED the final pass (`pagerank_dict`), not the final pass's
`newRank`: the returned dict `m` is some iterate of the initial uniform dict
and its own one-step update `pr_step m` (the final `newRank`) passes the
convergence test against `m` — `m` is one update behind `newRank`. -/
theorem iterate_pagerank_returns_prev (corpus : Graph) (d : ℚ) (fuel : Nat)
    (m : List (Page × ℚ)) (h : iterate_pagerank corpus d fuel = some m) :
    converged (pr_step (sink_normalize corpus) d m) m = true ∧
      ∃ k, m = stepN (sink_normalize corpus) d k
        (corpus.map (fun pr => (pr.1, 1 / (corpus.length : ℚ)))) := by
  by_cases hc : corpus.length = 0
  · simp only [iterate_pagerank, if_pos hc] at h
    exact Option.noConfusion h
  · simp only [iterate_pagerank, if_neg hc] at h
    exact iterate_loop_returns_prev _ d fuel _ m h

/-- Witness for the amended Claim C1 at `{A: {B}, B: {A}}`, damping 0.85. -/
theorem iterate_pagerank_returns_prev_witness :
    iterate_pagerank [("A", ["B"]), ("B", ["A"])] (17 / 20) 1
        = some [("A", 1 / 2), ("B", 1 / 2)] ∧
      (converged (pr_step (sink_normalize [("A", ["B"]), ("B", ["A"])])
            (17 / 20) [("A", 1 / 2), ("B", 1 / 2)])
          [("A", 1 / 2), ("B", 1 / 2)] = true ∧
        ∃ k, [("A", (1 : ℚ) / 2), ("B", 1 / 2)]
          = stepN (sink_normalize [("A", ["B"]), ("B", ["A"])]) (17 / 20) k
            ([("A", ["B"]), ("B", ["A"])].map (fun pr =>
              (pr.1, 1 / (([("A", ["B"]), ("B", ["A"])] : Graph).length : ℚ))))) := by
  have h : iterate_pagerank [("A", ["B"]), ("B", ["A"])] (17 / 20) 1
      = some [("A", 1 / 2), ("B", 1 / 2)] := by
    simp [iterate_pagerank, iterate_loop, converged, pr_step, rank_sum,
      rankLookup, distLookup, sink_normalize, keys, List.filter_cons, abs_lt]
    norm_num
  exact ⟨h, iterate_pagerank_returns_prev _ _ 1 _ h⟩

/-- Claim C1 (counterexample): on the graph `{A: {B}, B: {A}, C: {A}}` with
damping 1/1000 every page moves by less than 0.001 in the very first pass,
so the loop stops there; the code returns the initial uniform dict
(`pagerank_dict`), while a loop that returned `newRank` as the claim states
would return the updated dict, which differs at page `A` (1/3 vs 1001/3000). -/
theorem iterate_returns_prev_not_new_cex :
    iterate_pagerank [("A", ["B"]), ("B", ["A"]), ("C", ["A"])] (1 / 1000) 1
        = some [("A", 1 / 3), ("B", 1 / 3), ("C", 1 / 3)] ∧
      iterate_pagerank_specModel [("A", ["B"]), ("B", ["A"]), ("C", ["A"])]
          (1 / 1000) 1
        = some [("A", 1001 / 3000), ("B", 1 / 3), ("C", 333 / 1000)] ∧
      iterate_pagerank [("A", ["B"]), ("B", ["A"]), ("C", ["A"])] (1 / 1000) 1
        ≠ iterate_pagerank_specModel [("A", ["B"]), ("B", ["A"]), ("C", ["A"])]
            (1 / 1000) 1 := by
  have h1 : iterate_pagerank [("A", ["B"]), ("B", ["A"]), ("C", ["A"])]
      (1 / 1000) 1 = some [("A", 1 / 3), ("B", 1 / 3), ("C", 1 / 3)] := by
    simp [iterate_pagerank, iterate_loop, converged, pr_step, rank_sum,
      rankLookup, distLookup, sink_normalize, keys, List.filter_cons, abs_lt]
    norm_num
  have h2 : iterate_pagerank_specModel [("A", ["B"]), ("B", ["A"]), ("C", ["A"])]
      (1 / 1000) 1
      = some [("A", 1001 / 3000), ("B", 1 / 3), ("C", 333 / 1000)] := by
    simp [iterate_pagerank_specModel, iterate_loop_specModel, converged,
      pr_step, rank_sum, rankLookup, distLookup, sink_normalize, keys,
      List.filter_cons, abs_lt]
    norm_num
  refine ⟨h1, h2, ?_⟩
  rw [h1, h2]
  intro heq
  simp only [Option.some.injEq, List.cons.injEq, Prod.mk.injEq] at heq
  exact absurd heq.1.2 (by norm_num)

/-! ### Sampling estimator sums to one (Claim C7) -/

theorem pickKey_mem (pop : List Page) (r : Nat) (h : pop ≠ []) :
    pickKey pop r ∈ pop := by
  unfold pickKey
  have hlen : 0 < pop.length := List.length_pos.mpr h
  have hlt : r % pop.length < pop.length := Nat.mod_lt _ hlen
  rw [List.getD_eq_getElem pop "" hlt]
  exact List.getElem_mem hlt

theorem transition_model_some (corpus : Graph) (cur : Page) (d : ℚ)
    (h : cur ∈ keys corpus) :
    ∃ model, transition_model corpus cur d = some model := by
  obtain ⟨out, ho⟩ := mem_keys_lookupOut h
  simp only [transition_model, ho]
  by_cases hl : out.length = 0
  · exact ⟨_, by rw [if_pos hl]⟩
  · exact ⟨_, by rw [if_neg hl]⟩

theorem incr_not_mem (counts : List (Page × Int)) (p : Page)
    (h : p ∉ counts.map Prod.fst) : incr counts p = counts := by
  induction counts with
  | nil => rfl
  | cons hd t ih =>
    simp only [List.map_cons, List.mem_cons, not_or] at h
    simp only [incr, List.map_cons] at ih ⊢
    rw [if_neg (fun heq => h.1 heq.symm), ih h.2]

theorem incr_sum (counts : List (Page × Int)) (p : Page)
    (hnd : (counts.map Prod.fst).Nodup) (hp : p ∈ counts.map Prod.fst) :
    ((incr counts p).map Prod.snd).sum = (counts.map Prod.snd).sum + 1 := by
  induction counts with
  | nil => simp at hp
  | cons hd t ih =>
    simp only [List.map_cons, List.nodup_cons] at hnd
    simp only [List.map_cons, List.mem_cons] at hp
    by_cases h : hd.1 = p
    · have hnt : p ∉ t.map Prod.fst := h ▸ hnd.1
      simp only [incr, List.map_cons, if_pos h, List.sum_cons]
      have ht : incr t p = t := incr_not_mem t p hnt
      simp only [incr] at ht
      rw [ht]
      ring
    · rcases hp with heq | hpt
      · exact absurd heq.symm h
      · have ih2 := ih hnd.2 hpt
        simp only [incr, List.map_cons, if_neg h, List.sum_cons] at ih2 ⊢
        rw [ih2]
        ring

theorem incr_nonneg (counts : List (Page × Int)) (p : Page)
    (h : ∀ pr ∈ counts, 0 ≤ pr.2) : ∀ pr ∈ incr counts p, 0 ≤ pr.2 := by
  intro pr hpr
  unfold incr at hpr
  obtain ⟨q, hq, rfl⟩ := List.mem_map.mp hpr
  by_cases hh : q.1 = p
  · rw [if_pos hh]
    have := h q hq
    simp only []
    omega
  · rw [if_neg hh]
    exact h q hq

theorem sample_loop_invariant (corpus : Graph) (d : ℚ) (rng : Nat → Nat)
    (hkeys : (keys corpus).Nodup) (hne : corpus ≠ []) :
    ∀ (k i : Nat) (cur : Page) (counts : List (Page × Int)),
      cur ∈ keys corpus →
      counts.map Prod.fst = keys corpus →
      (∀ pr ∈ counts, 0 ≤ pr.2) →
      ∃ counts2, sample_loop corpus d rng k i cur counts = some counts2 ∧
        counts2.map Prod.fst = keys corpus ∧
        (counts2.map Prod.snd).sum = (counts.map Prod.snd).sum + k ∧
        (∀ pr ∈ counts2, 0 ≤ pr.2) := by
  intro k
  induction k with
  | zero =>
    intro i cur counts _ hck hnn
    exact ⟨counts, by simp [sample_loop], hck, by simp, hnn⟩
  | succ k ih =>
    intro i cur counts hcur hck hnn
    obtain ⟨model, htm⟩ := transition_model_some corpus cur d hcur
    have hmk : model.map Prod.fst = keys corpus := transition_model_keys htm
    have hmne : model.map Prod.fst ≠ [] := by
      rw [hmk]
      unfold keys
      simpa using hne
    have hnext : pickKey (model.map Prod.fst) (rng i) ∈ keys corpus := by
      rw [← hmk]
      exact pickKey_mem _ _ hmne
    have hck2 : (incr counts (pickKey (model.map Prod.fst) (rng i))).map Prod.fst
        = keys corpus := by rw [incr_map_fst, hck]
    have hnn2 := incr_nonneg counts (pickKey (model.map Prod.fst) (rng i)) hnn
    obtain ⟨counts2, hsl, hk2, hsum2, hn2⟩ :=
      ih (i + 1) _ _ hnext hck2 hnn2
    refine ⟨counts2, ?_, hk2, ?_, hn2⟩
    · simp only [sample_loop, htm]
      exact hsl
    · rw [hsum2, incr_sum counts _ (by rw [hck]; exact hkeys)
        (by rw [hck]; exact hnext)]
      push_cast
      ring

theorem sum_snd_zeros (l : List (Page × List Page)) :
    ((l.map (fun pr => (pr.1, (0 : Int)))).map Prod.snd).sum = 0 := by
  induction l with
  | nil => rfl
  | cons hd t ih => simpa using ih

theorem sum_map_int_div (l : List (Page × Int)) (c : ℚ) :
    (l.map (fun pr => ((pr.2 : Int) : ℚ) / c)).sum
      = (((l.map Prod.snd).sum : Int) : ℚ) / c := by
  induction l with
  | nil => simp
  | cons hd t ih =>
    simp only [List.map_cons, List.sum_cons, ih]
    push_cast
    ring

/-- Claim C7: for `n ≥ 1` the sampling estimator returns a mapping with
non-negative values summing to exactly 1 (integer visit counts totalling `n`,
divided by `n`), for every random stream. -/
theorem sample_pagerank_sum_one (corpus : Graph) (d : ℚ) (n : Int)
    (rng : Nat → Nat) (hkeys : (keys corpus).Nodup) (hne : corpus ≠ [])
    (hn : 1 ≤ n) :
    ∃ m, sample_pagerank corpus d n rng = some m ∧ sumValues m = 1 ∧
      ∀ pr ∈ m, 0 ≤ pr.2 := by
  have hc : ¬ corpus.length = 0 := fun h0 => hne (List.length_eq_zero.mp h0)
  have hkne : keys corpus ≠ [] := by
    unfold keys
    simpa using hne
  have hstart : pickKey (keys corpus) (rng 0) ∈ keys corpus :=
    pickKey_mem _ _ hkne
  have hcounts0 : (corpus.map (fun pr => (pr.1, (0 : Int)))).map Prod.fst
      = keys corpus := by
    rw [map_fst_map_pair]
    rfl
  obtain ⟨counts2, hsl, hk2, hsum2, hnn2⟩ :=
    sample_loop_invariant corpus d rng hkeys hne n.toNat 1 _ _ hstart hcounts0
      (by
        intro pr hpr
        obtain ⟨q, _, rfl⟩ := List.mem_map.mp hpr
        exact le_refl 0)
  have hzero : ((corpus.map (fun pr => (pr.1, (0 : Int)))).map Prod.snd).sum
      = 0 := sum_snd_zeros corpus
  have hn0 : ¬ n = 0 := by omega
  have hsum2n : (counts2.map Prod.snd).sum = n := by
    rw [hsum2, hzero, Int.toNat_of_nonneg (by omega)]
    ring
  simp only [sample_pagerank, if_neg hc, hsl]
  rw [if_neg hn0]
  refine ⟨_, rfl, ?_, ?_⟩
  · rw [sumValues_map, sum_map_int_div, hsum2n]
    have : (n : ℚ) ≠ 0 := by
      exact_mod_cast hn0
    field_simp
  · intro pr hpr
    obtain ⟨q, hq, rfl⟩ := List.mem_map.mp hpr
    have h1 : (0 : ℚ) ≤ (q.2 : ℚ) := by exact_mod_cast hnn2 q hq
    have h2 : (0 : ℚ) ≤ (n : ℚ) := by exact_mod_cast (by omega : (0 : Int) ≤ n)
    exact div_nonneg h1 h2

/-- Witness for Claim C7 at `{A: {B}, B: {A}}`, damping 0.85, `n = 2`,
constant-zero random stream. -/
theorem sample_pagerank_sum_one_witness :
    ∃ m, sample_pagerank [("A", ["B"]), ("B", ["A"])] (17 / 20) 2 (fun _ => 0)
        = some m ∧ sumValues m = 1 ∧ ∀ pr ∈ m, 0 ≤ pr.2 :=
  sample_pagerank_sum_one [("A", ["B"]), ("B", ["A"])] (17 / 20) 2 (fun _ => 0)
    (by decide) (by decide) (by norm_num)

/-! ### Termination of the relaxation loop (Claim C8): L1 contraction -/

theorem sink_normalize_normWF (corpus : Graph) (hWF : WF corpus)
    (hne : corpus ≠ []) : NormWF (sink_normalize corpus) := by
  have hkne : keys corpus ≠ [] := by
    unfold keys
    simpa using hne
  constructor
  · rw [sink_normalize_keys]
    exact hWF.1
  · intro pr hpr
    unfold sink_normalize at hpr
    obtain ⟨q, hq, rfl⟩ := List.mem_map.mp hpr
    by_cases he : q.2.isEmpty
    · rw [if_pos he]
      refine ⟨hWF.1, hkne, ?_⟩
      intro t ht
      rw [sink_normalize_keys]
      exact ht
    · rw [if_neg he]
      refine ⟨(hWF.2 q hq).1, ?_, ?_⟩
      · intro h0
        rw [h0] at he
        exact he rfl
      · intro t ht
        rw [sink_normalize_keys]
        exact (hWF.2 q hq).2 t ht

theorem rankLookup_map_val (c : Graph) (F : Page → ℚ) :
    ∀ p ∈ keys c, rankLookup (c.map (fun pr => (pr.1, F pr.1))) p = F p := by
  intro p hp
  unfold rankLookup
  rw [distLookup_map_val c F p hp]
  rfl

theorem rankLookup_pr_step (g : Graph) (d : ℚ) (r : List (Page × ℚ)) :
    ∀ p ∈ keys g, rankLookup (pr_step g d r) p
      = (1 - d) / (g.length : ℚ) + d * rank_sum g r p := by
  intro p hp
  exact rankLookup_map_val g
    (fun x => (1 - d) / (g.length : ℚ) + d * rank_sum g r x) p hp

theorem rank_sum_eq_ite (g : Graph) (r : List (Page × ℚ)) (p : Page) :
    rank_sum g r p = (g.map (fun q =>
      if p ∈ q.2 then rankLookup r q.1 / (q.2.length : ℚ) else 0)).sum := by
  unfold rank_sum
  exact sum_filter_map_eq_sum_ite g (fun q => p ∈ q.2)
    (fun q => rankLookup r q.1 / (q.2.length : ℚ))

/-- Column-stochasticity of the link matrix: summing, over all pages `p`,
the contribution `h(q)/|out(q)|` of each in-neighbour `q` of `p` gives back
the total weight `Σ h(q)` — every page's outbound weight is fully
distributed (after sink normalization no outbound set is empty). -/
theorem weighted_in_sum (g : Graph) (hg : NormWF g) (h : Page → ℚ) :
    ((keys g).map (fun p => (g.map (fun q =>
        if p ∈ q.2 then h q.1 / (q.2.length : ℚ) else 0)).sum)).sum
      = (g.map (fun q => h q.1)).sum := by
  rw [sum_comm_lists]
  apply congrArg List.sum
  apply List.map_congr_left
  intro q hq
  rw [sum_map_ite_mem (keys g) q.2 (h q.1 / (q.2.length : ℚ))]
  rw [length_filter_mem (keys g) q.2 hg.1 (hg.2 q hq).1 (hg.2 q hq).2.2]
  have hL : ((q.2.length : ℚ)) ≠ 0 := by
    have : q.2.length ≠ 0 := fun h0 => (hg.2 q hq).2.1 (List.length_eq_zero.mp h0)
    exact_mod_cast this
  field_simp

theorem sum_over_g_eq_sum_keys (g : Graph) (f : Page → ℚ) :
    (g.map (fun q => f q.1)).sum = ((keys g).map f).sum := by
  unfold keys
  rw [List.map_map]
  rfl

theorem sum_keys_pr_step (g : Graph) (hg : NormWF g) (d : ℚ)
    (r : List (Page × ℚ)) (hlen : g.length ≠ 0)
    (hr : ((keys g).map (fun p => rankLookup r p)).sum = 1) :
    ((keys g).map (fun p => rankLookup (pr_step g d r) p)).sum = 1 := by
  rw [List.map_congr_left (fun p hp => by
    rw [rankLookup_pr_step g d r p hp, rank_sum_eq_ite])]
  rw [sum_map_add, sum_map_const_val, sum_map_mul_const]
  rw [weighted_in_sum g hg (fun x => rankLookup r x)]
  rw [sum_over_g_eq_sum_keys g (fun x => rankLookup r x), hr]
  have hklen : (((keys g).length : ℚ)) = ((g.length : ℚ)) := by
    unfold keys
    rw [List.length_map]
  rw [hklen]
  have hN : ((g.length : ℚ)) ≠ 0 := by exact_mod_cast hlen
  field_simp

theorem rank_sum_nonneg (g : Graph) (r : List (Page × ℚ))
    (hr : ∀ p ∈ keys g, 0 ≤ rankLookup r p) (p : Page) :
    0 ≤ rank_sum g r p := by
  unfold rank_sum
  apply sum_map_nonneg
  intro q hq
  have hqg : q ∈ g := (List.mem_filter.mp hq).1
  have hq1 : q.1 ∈ keys g := List.mem_map_of_mem Prod.fst hqg
  exact div_nonneg (hr q.1 hq1) (by positivity)

theorem rankLookup_pr_step_nonneg (g : Graph) (d : ℚ) (r : List (Page × ℚ))
    (hd0 : 0 ≤ d) (hd1 : d ≤ 1)
    (hr : ∀ p ∈ keys g, 0 ≤ rankLookup r p) :
    ∀ p ∈ keys g, 0 ≤ rankLookup (pr_step g d r) p := by
  intro p hp
  rw [rankLookup_pr_step g d r p hp]
  have h1 : (0 : ℚ) ≤ (1 - d) / (g.length : ℚ) := by
    apply div_nonneg (by linarith) (by positivity)
  have h2 : (0 : ℚ) ≤ d * rank_sum g r p :=
    mul_nonneg hd0 (rank_sum_nonneg g r hr p)
  linarith

/-- One relaxation pass contracts the L1 distance between any two rank dicts
by the damping factor. -/
theorem l1_pr_step_le (g : Graph) (hg : NormWF g) (d : ℚ) (hd0 : 0 ≤ d)
    (r r' : List (Page × ℚ)) :
    L1 g (pr_step g d r) (pr_step g d r') ≤ d * L1 g r r' := by
  have key : ∀ p ∈ keys g,
      |rankLookup (pr_step g d r) p - rankLookup (pr_step g d r') p|
        ≤ d * (g.map (fun q => if p ∈ q.2 then
            |rankLookup r q.1 - rankLookup r' q.1| / (q.2.length : ℚ)
            else 0)).sum := by
    intro p hp
    rw [rankLookup_pr_step g d r p hp, rankLookup_pr_step g d r' p hp]
    have hdiff : (1 - d) / (g.length : ℚ) + d * rank_sum g r p
        - ((1 - d) / (g.length : ℚ) + d * rank_sum g r' p)
        = d * (rank_sum g r p - rank_sum g r' p) := by ring
    rw [hdiff, abs_mul, abs_of_nonneg hd0]
    apply mul_le_mul_of_nonneg_left _ hd0
    have hsub : rank_sum g r p - rank_sum g r' p
        = (g.map (fun q => if p ∈ q.2 then
            (rankLookup r q.1 - rankLookup r' q.1) / (q.2.length : ℚ)
            else 0)).sum := by
      rw [rank_sum_eq_ite, rank_sum_eq_ite, ← sum_map_sub]
      apply congrArg List.sum
      apply List.map_congr_left
      intro q _
      by_cases hm : p ∈ q.2
      · simp only [if_pos hm]
        rw [sub_div]
      · simp only [if_neg hm]
        ring
    rw [hsub]
    refine le_trans (abs_sum_le_sum_abs_list g _) (le_of_eq ?_)
    apply congrArg List.sum
    apply List.map_congr_left
    intro q _
    by_cases hm : p ∈ q.2
    · simp only [if_pos hm]
      rw [abs_div, abs_of_nonneg (show (0 : ℚ) ≤ (q.2.length : ℚ) by positivity)]
    · simp only [if_neg hm, abs_zero]
  unfold L1
  calc ((keys g).map (fun p =>
        |rankLookup (pr_step g d r) p - rankLookup (pr_step g d r') p|)).sum
      ≤ ((keys g).map (fun p => d * (g.map (fun q => if p ∈ q.2 then
          |rankLookup r q.1 - rankLookup r' q.1| / (q.2.length : ℚ)
          else 0)).sum)).sum := List.sum_le_sum key
    _ = d * ((keys g).map (fun p => (g.map (fun q => if p ∈ q.2 then
          |rankLookup r q.1 - rankLookup r' q.1| / (q.2.length : ℚ)
          else 0)).sum)).sum := sum_map_mul_const _ d _
    _ = d * (g.map (fun q =>
          |rankLookup r q.1 - rankLookup r' q.1|)).sum := by
        rw [weighted_in_sum g hg (fun x => |rankLookup r x - rankLookup r' x|)]
    _ = d * ((keys g).map (fun p =>
          |rankLookup r p - rankLookup r' p|)).sum := by
        rw [sum_over_g_eq_sum_keys g (fun x => |rankLookup r x - rankLookup r' x|)]

/-- Successive iterates approach each other geometrically. -/
theorem l1_stepN_le (g : Graph) (hg : NormWF g) (d : ℚ) (hd0 : 0 ≤ d)
    (r : List (Page × ℚ)) :
    ∀ k, L1 g (stepN g d (k + 1) r) (stepN g d k r)
      ≤ d ^ k * L1 g (pr_step g d r) r := by
  intro k
  induction k with
  | zero => simp [stepN]
  | succ k ih =>
    have hstep := l1_pr_step_le g hg d hd0 (stepN g d (k + 1) r) (stepN g d k r)
    calc L1 g (stepN g d (k + 2) r) (stepN g d (k + 1) r)
        ≤ d * L1 g (stepN g d (k + 1) r) (stepN g d k r) := hstep
      _ ≤ d * (d ^ k * L1 g (pr_step g d r) r) :=
          mul_le_mul_of_nonneg_left ih hd0
      _ = d ^ (k + 1) * L1 g (pr_step g d r) r := by ring

theorem stepN_map_fst (g : Graph) (d : ℚ) (r : List (Page × ℚ))
    (hr : r.map Prod.fst = keys g) :
    ∀ k, (stepN g d k r).map Prod.fst = keys g := by
  intro k
  induction k with
  | zero => exact hr
  | succ k _ =>
    show (pr_step g d (stepN g d k r)).map Prod.fst = keys g
    unfold pr_step
    rw [map_fst_map_pair]
    rfl

/-- If the L1 distance of a pass is below the threshold, the per-page
convergence test of the code passes. -/
theorem converged_of_l1 (g : Graph) (rnew rold : List (Page × ℚ))
    (hm : rold.map Prod.fst = keys g) (h : L1 g rnew rold < 1 / 1000) :
    converged rnew rold = true := by
  unfold converged
  rw [hm, List.all_eq_true]
  intro p hp
  rw [decide_eq_true_eq]
  have h1 : |rankLookup rnew p - rankLookup rold p| ≤ L1 g rnew rold :=
    single_le_sum_mem (keys g)
      (fun x => |rankLookup rnew x - rankLookup rold x|)
      (fun x _ => abs_nonneg _) p hp
  linarith

/-- If some pass within the fuel bound converges, the loop returns. -/
theorem iterate_loop_total (g : Graph) (d : ℚ) :
    ∀ (fuel : Nat) (r : List (Page × ℚ)),
      (∃ k, k < fuel ∧
        converged (pr_step g d (stepN g d k r)) (stepN g d k r) = true) →
      ∃ m, iterate_loop g d fuel r = some m := by
  intro fuel
  induction fuel with
  | zero =>
    rintro r ⟨k, hk, _⟩
    omega
  | succ fuel ih =>
    rintro r ⟨k, hk, hcv⟩
    by_cases hc : converged (pr_step g d r) r = true
    · exact ⟨r, by simp only [iterate_loop]; rw [if_pos hc]⟩
    · cases k with
      | zero => exact absurd hcv hc
      | succ k =>
        obtain ⟨m, hm⟩ := ih (pr_step g d r)
          ⟨k, by omega, by rw [stepN_shift]; exact hcv⟩
        exact ⟨m, by simp only [iterate_loop]; rw [if_neg hc]; exact hm⟩

/-- Claim C8: for every well-formed non-empty graph and damping
`0 ≤ d < 1`, the relaxation loop of the iterative estimator converges
within a bounded number of passes: some fuel makes `iterate_pagerank`
return a result. -/
theorem iterate_pagerank_terminates (corpus : Graph) (d : ℚ)
    (hWF : WF corpus) (hne : corpus ≠ []) (hd0 : 0 ≤ d) (hd1 : d < 1) :
    ∃ fuel m, iterate_pagerank corpus d fuel = some m := by
  have hg : NormWF (sink_normalize corpus) := sink_normalize_normWF corpus hWF hne
  have hclen : ¬ corpus.length = 0 := fun h0 => hne (List.length_eq_zero.mp h0)
  have hlen : (sink_normalize corpus).length ≠ 0 := by
    rw [sink_normalize_length]
    exact hclen
  have hkeq : keys (sink_normalize corpus) = keys corpus := sink_normalize_keys corpus
  have hNQ : ((corpus.length : ℚ)) ≠ 0 := by exact_mod_cast hclen
  have hr0keys : (corpus.map (fun pr =>
      (pr.1, 1 / (corpus.length : ℚ)))).map Prod.fst
      = keys (sink_normalize corpus) := by
    rw [map_fst_map_pair, hkeq]
    rfl
  have hr0val : ∀ p ∈ keys (sink_normalize corpus),
      rankLookup (corpus.map (fun pr => (pr.1, 1 / (corpus.length : ℚ)))) p
        = 1 / (corpus.length : ℚ) := by
    intro p hp
    rw [hkeq] at hp
    exact rankLookup_map_val corpus (fun _ => 1 / (corpus.length : ℚ)) p hp
  have hr0sum : ((keys (sink_normalize corpus)).map (fun p =>
      rankLookup (corpus.map (fun pr =>
        (pr.1, 1 / (corpus.length : ℚ)))) p)).sum = 1 := by
    rw [List.map_congr_left hr0val, sum_map_const_val]
    have hkl : ((keys (sink_normalize corpus)).length : ℚ)
        = (corpus.length : ℚ) := by
      unfold keys
      rw [List.length_map, sink_normalize_length]
    rw [hkl]
    field_simp
  have hr0nn : ∀ p ∈ keys (sink_normalize corpus),
      0 ≤ rankLookup (corpus.map (fun pr =>
        (pr.1, 1 / (corpus.length : ℚ)))) p := by
    intro p hp
    rw [hr0val p hp]
    positivity
  have hs1 := sum_keys_pr_step (sink_normalize corpus) hg d _ hlen hr0sum
  have hsnn := rankLookup_pr_step_nonneg (sink_normalize corpus) d _
    hd0 (le_of_lt hd1) hr0nn
  have hδ : L1 (sink_normalize corpus)
      (pr_step (sink_normalize corpus) d (corpus.map (fun pr =>
        (pr.1, 1 / (corpus.length : ℚ)))))
      (corpus.map (fun pr => (pr.1, 1 / (corpus.length : ℚ)))) ≤ 2 := by
    unfold L1
    calc ((keys (sink_normalize corpus)).map (fun p =>
          |rankLookup (pr_step (sink_normalize corpus) d _) p -
            rankLookup (corpus.map (fun pr =>
              (pr.1, 1 / (corpus.length : ℚ)))) p|)).sum
        ≤ ((keys (sink_normalize corpus)).map (fun p =>
            rankLookup (pr_step (sink_normalize corpus) d
              (corpus.map (fun pr => (pr.1, 1 / (corpus.length : ℚ))))) p +
              rankLookup (corpus.map (fun pr =>
                (pr.1, 1 / (corpus.length : ℚ)))) p)).sum := by
          apply List.sum_le_sum
          intro p hp
          have h1 := hsnn p hp
          have h2 := hr0nn p hp
          calc |rankLookup (pr_step (sink_normalize corpus) d _) p -
                rankLookup (corpus.map (fun pr =>
                  (pr.1, 1 / (corpus.length : ℚ)))) p|
              ≤ |rankLookup (pr_step (sink_normalize corpus) d
                  (corpus.map (fun pr => (pr.1, 1 / (corpus.length : ℚ))))) p| +
                |rankLookup (corpus.map (fun pr =>
                  (pr.1, 1 / (corpus.length : ℚ)))) p| := abs_sub _ _
            _ = _ := by rw [abs_of_nonneg h1, abs_of_nonneg h2]
      _ = 1 + 1 := by rw [sum_map_add, hs1, hr0sum]
      _ = 2 := by norm_num
  obtain ⟨k, hk⟩ := exists_pow_lt_of_lt_one
    (show (0 : ℚ) < 1 / 2000 by norm_num) hd1
  have hdk0 : (0 : ℚ) ≤ d ^ k := pow_nonneg hd0 k
  have hlt : L1 (sink_normalize corpus)
      (stepN (sink_normalize corpus) d (k + 1)
        (corpus.map (fun pr => (pr.1, 1 / (corpus.length : ℚ)))))
      (stepN (sink_normalize corpus) d k
        (corpus.map (fun pr => (pr.1, 1 / (corpus.length : ℚ)))))
      < 1 / 1000 := by
    have hb := l1_stepN_le (sink_normalize corpus) hg d hd0
      (corpus.map (fun pr => (pr.1, 1 / (corpus.length : ℚ)))) k
    have hb2 : d ^ k * L1 (sink_normalize corpus)
        (pr_step (sink_normalize corpus) d (corpus.map (fun pr =>
          (pr.1, 1 / (corpus.length : ℚ)))))
        (corpus.map (fun pr => (pr.1, 1 / (corpus.length : ℚ))))
        ≤ d ^ k * 2 := mul_le_mul_of_nonneg_left hδ hdk0
    have hb3 : d ^ k * 2 < 1 / 1000 := by linarith
    linarith
  have hcv : converged
      (pr_step (sink_normalize corpus) d
        (stepN (sink_normalize corpus) d k
          (corpus.map (fun pr => (pr.1, 1 / (corpus.length : ℚ))))))
      (stepN (sink_normalize corpus) d k
        (corpus.map (fun pr => (pr.1, 1 / (corpus.length : ℚ))))) = true := by
    apply converged_of_l1 (sink_normalize corpus)
    · exact stepN_map_fst (sink_normalize corpus) d _ hr0keys k
    · exact hlt
  obtain ⟨m, hm⟩ := iterate_loop_total (sink_normalize corpus) d (k + 1)
    (corpus.map (fun pr => (pr.1, 1 / (corpus.length : ℚ))))
    ⟨k, Nat.lt_succ_self k, hcv⟩
  refine ⟨k + 1, m, ?_⟩
  simp only [iterate_pagerank]
  rw [if_neg hclen]
  exact hm

/-- Witness for Claim C8 at `{A: {B}, B: {A}}`, damping 0.85. -/
theorem iterate_pagerank_terminates_witness :
    ∃ fuel m, iterate_pagerank [("A", ["B"]), ("B", ["A"])] (17 / 20) fuel
      = some m :=
  iterate_pagerank_terminates [("A", ["B"]), ("B", ["A"])] (17 / 20)
    (by decide) (by decide) (by norm_num) (by norm_num)

/-- Claim C9: the iterative estimator consumes no randomness: with the
process-wide generator state threaded through explicitly, the result is
independent of the incoming state and the state is returned unchanged. -/
theorem iterate_pagerank_deterministic (corpus : Graph) (d : ℚ) (fuel : Nat)
    (s₁ s₂ : Nat → Nat) :
    (iterate_pagerank_rng corpus d fuel s₁).1
        = (iterate_pagerank_rng corpus d fuel s₂).1 ∧
      (iterate_pagerank_rng corpus d fuel s₁).2 = s₁ :=
  ⟨rfl, rfl⟩

end PageRank
